import Mathlib

/- Verification of the fantasy-recap frontend.

   Shallow embeddings of the string-processing, data-fetch, auto-save,
   OAuth-code-deduplication, WebSocket-reconnection and pagination logic of
   the repository, with proofs of the specified properties.  JavaScript
   strings are modelled as lists of characters; the regular-expression
   substitutions of the exporter are modelled by explicit scanning functions
   that reproduce the semantics of the concrete patterns appearing in the
   source (left-to-right global scan, case-insensitive flag, lazy and greedy
   quantifiers as they occur there). -/

/-- Model of JavaScript ASCII case folding, as used by the regex `i` flag and
    by `toLowerCase` on the ASCII-only strings this code applies it to:
    code points 65-90 (A-Z) map to 97-122 (a-z), everything else is fixed. -/
def lowerChar (c : Char) : Char :=
  if 65 ≤ c.toNat ∧ c.toNat ≤ 90 then Char.ofNat (c.toNat + 32) else c

theorem toNat_ofNat_small {n : Nat} (h : n < 55296) : (Char.ofNat n).toNat = n := by
  have hv : n.isValidChar := Or.inl h
  simp [Char.ofNat, hv, Char.ofNatAux, Char.toNat, UInt32.toNat, BitVec.toNat_ofNatLt]

/-- A character whose code is not a lowercase letter code is fixed by
    `lowerChar` only if it was already that character. -/
theorem lowerChar_eq_nonlower {c t : Char}
    (h1 : ¬ (97 ≤ t.toNat ∧ t.toNat ≤ 122)) (h : lowerChar c = t) : c = t := by
  unfold lowerChar at h
  by_cases hc : 65 ≤ c.toNat ∧ c.toNat ≤ 90
  · rw [if_pos hc] at h
    have hlt : c.toNat + 32 < 55296 := by omega
    have := toNat_ofNat_small hlt
    rw [h] at this
    omega
  · rwa [if_neg hc] at h

theorem lowerChar_fix {c : Char} (hc : ¬ (65 ≤ c.toNat ∧ c.toNat ≤ 90)) :
    lowerChar c = c := by
  unfold lowerChar
  rw [if_neg hc]

theorem lowerChar_toNat_upper {c : Char} (hc : 65 ≤ c.toNat ∧ c.toNat ≤ 90) :
    (lowerChar c).toNat = c.toNat + 32 := by
  unfold lowerChar
  rw [if_pos hc]
  exact toNat_ofNat_small (by omega)

/- ===================== sanitizeFilename (exportUtils.ts) ===================== -/

/-- One character of `title.replace(/[^a-z0-9]/gi, '_')`: every character
    outside ASCII letters and digits becomes an underscore. -/
def underscoreNonAlnum (c : Char) : Char :=
  if (97 ≤ c.toNat ∧ c.toNat ≤ 122) ∨ (65 ≤ c.toNat ∧ c.toNat ≤ 90) ∨
      (48 ≤ c.toNat ∧ c.toNat ≤ 57) then c else '_'

/-- `.replace(/_{2,}/g, '_')`: every run of two or more underscores collapses
    to a single underscore. -/
def collapseUnderscores (s : List Char) : List Char :=
  match s with
  | [] => []
  | [c] => [c]
  | c :: d :: cs =>
    if c = '_' ∧ d = '_' then collapseUnderscores (d :: cs)
    else c :: collapseUnderscores (d :: cs)

/-- Left half of `.replace(/^_|_$/g, '')`: drops one leading underscore. -/
def dropLeadUnderscore (s : List Char) : List Char :=
  match s with
  | [] => []
  | c :: cs => if c = '_' then cs else c :: cs

/-- Right half of `.replace(/^_|_$/g, '')`: drops one trailing underscore. -/
def dropTrailUnderscore (s : List Char) : List Char :=
  (dropLeadUnderscore s.reverse).reverse

/-- Shallow embedding of `sanitizeFilename` from
    `src/frontend/src/components/RecapEditor/exportUtils.ts`:
    replace non-alphanumerics by underscores, collapse underscore runs,
    strip boundary underscores, lowercase. -/
def sanitizeFilename (s : List Char) : List Char :=
  (dropTrailUnderscore (dropLeadUnderscore
      (collapseUnderscores (s.map underscoreNonAlnum)))).map lowerChar

theorem collapseUnderscores_nil : collapseUnderscores [] = [] := by
  rw [collapseUnderscores]

theorem collapseUnderscores_one (c : Char) : collapseUnderscores [c] = [c] := by
  rw [collapseUnderscores]

theorem collapseUnderscores_headq (s : List Char) :
    (collapseUnderscores s).head? = s.head? := by
  induction s using collapseUnderscores.induct with
  | case1 => rw [collapseUnderscores_nil]
  | case2 c => rw [collapseUnderscores_one]
  | case3 c d cs hdd ih =>
    rw [collapseUnderscores, if_pos hdd, ih]
    simp [hdd.1, hdd.2]
  | case4 c d cs hdd ih =>
    rw [collapseUnderscores, if_neg hdd]
    rfl

theorem collapseUnderscores_no_dd (s : List Char) :
    ¬ ['_', '_'] <:+: collapseUnderscores s := by
  induction s using collapseUnderscores.induct with
  | case1 => rw [collapseUnderscores_nil]; intro h; exact absurd h.length_le (by simp)
  | case2 c => rw [collapseUnderscores_one]; intro h; exact absurd h.length_le (by simp)
  | case3 c d cs hdd ih =>
    rw [collapseUnderscores, if_pos hdd]
    exact ih
  | case4 c d cs hdd ih =>
    rw [collapseUnderscores, if_neg hdd]
    intro h
    rcases List.infix_cons_iff.mp h with hpre | hin
    · rcases hpre with ⟨t, ht⟩
      simp only [List.cons_append] at ht
      have hc : c = '_' := by exact (List.cons.injEq _ _ _ _).mp ht |>.1.symm
      have htail : '_' :: t = collapseUnderscores (d :: cs) :=
        ((List.cons.injEq _ _ _ _).mp ht).2
      have hd : (collapseUnderscores (d :: cs)).head? = some d :=
        collapseUnderscores_headq (d :: cs)
      rw [← htail] at hd
      simp at hd
      exact hdd ⟨hc, hd.symm⟩
    · exact ih hin

theorem collapseUnderscores_mem {x : Char} {s : List Char}
    (h : x ∈ collapseUnderscores s) : x ∈ s ∨ x = '_' := by
  induction s using collapseUnderscores.induct with
  | case1 => rw [collapseUnderscores_nil] at h; simp at h
  | case2 c => rw [collapseUnderscores_one] at h; simp at h; simp [h]
  | case3 c d cs hdd ih =>
    rw [collapseUnderscores, if_pos hdd] at h
    rcases ih h with hx | hx
    · rcases List.mem_cons.mp hx with hx | hx
      · exact Or.inr (by rw [hx, hdd.2])
      · exact Or.inl (by simp [hx])
    · exact Or.inr hx
  | case4 c d cs hdd ih =>
    rw [collapseUnderscores, if_neg hdd] at h
    rcases List.mem_cons.mp h with h | h
    · exact Or.inl (by simp [h])
    · rcases ih h with hx | hx
      · rcases List.mem_cons.mp hx with hx | hx
        · exact Or.inl (by simp [hx])
        · exact Or.inl (by simp [hx])
      · exact Or.inr hx

theorem dropLeadUnderscore_cases (s : List Char) :
    dropLeadUnderscore s = s ∨ s = '_' :: dropLeadUnderscore s := by
  match s with
  | [] => exact Or.inl rfl
  | c :: cs =>
    by_cases hc : c = '_'
    · subst hc; right; simp [dropLeadUnderscore]
    · left; simp [dropLeadUnderscore, hc]

theorem dropLeadUnderscore_suffix (s : List Char) :
    dropLeadUnderscore s <:+ s := by
  rcases dropLeadUnderscore_cases s with h | h
  · rw [h]
  · conv_rhs => rw [h]
    exact List.suffix_cons _ _

theorem no_dd_dropLead {s : List Char} (h : ¬ ['_', '_'] <:+: s) :
    ¬ ['_', '_'] <:+: dropLeadUnderscore s :=
  fun hin => h (hin.trans (dropLeadUnderscore_suffix s).isInfix)

/-- After a collapse, dropping one leading underscore leaves a string that
    does not start with an underscore. -/
theorem dropLead_head_ne {s : List Char} (h : ¬ ['_', '_'] <:+: s) :
    (dropLeadUnderscore s).head? ≠ some '_' := by
  match s with
  | [] => simp [dropLeadUnderscore]
  | c :: cs =>
    by_cases hc : c = '_'
    · subst hc
      rw [show dropLeadUnderscore ('_' :: cs) = cs from by simp [dropLeadUnderscore]]
      match cs with
      | [] => simp
      | d :: ds =>
        intro hd
        simp at hd
        subst hd
        exact h ⟨[], ds, rfl⟩
    · rw [show dropLeadUnderscore (c :: cs) = c :: cs from by simp [dropLeadUnderscore, hc]]
      simp [hc]

theorem dd_of_dd_map_lower {l : List Char}
    (h : ['_', '_'] <:+: l.map lowerChar) : ['_', '_'] <:+: l := by
  induction l with
  | nil => simp at h
  | cons c cs ih =>
    simp only [List.map_cons] at h
    rcases List.infix_cons_iff.mp h with hpre | hin
    · rcases hpre with ⟨t, ht⟩
      simp only [List.cons_append] at ht
      have h1 : lowerChar c = '_' := ((List.cons.injEq _ _ _ _).mp ht).1.symm
      have h2 : '_' :: t = List.map lowerChar cs := ((List.cons.injEq _ _ _ _).mp ht).2
      have hc : c = '_' := lowerChar_eq_nonlower (by decide) h1
      match cs, h2 with
      | c2 :: cs2, h2 =>
        have h3 : lowerChar c2 = '_' := by
          simp only [List.map_cons] at h2
          exact ((List.cons.injEq _ _ _ _).mp h2).1.symm
        have hc2 : c2 = '_' := lowerChar_eq_nonlower (by decide) h3
        exact ⟨[], cs2, by simp [hc, hc2]⟩
    · exact List.infix_cons (ih hin)

theorem head_of_isPrefix {l₁ l₂ : List Char} {c : Char}
    (h : l₁ <+: l₂) (hc : l₁.head? = some c) : l₂.head? = some c := by
  rcases h with ⟨t, ht⟩
  match l₁, hc with
  | a :: l, hc =>
    simp at hc
    subst hc
    rw [← ht]
    rfl

theorem dropTrail_isPrefix (s : List Char) : dropTrailUnderscore s <+: s := by
  unfold dropTrailUnderscore
  have h2 := List.reverse_prefix.mpr (dropLeadUnderscore_suffix s.reverse)
  simpa using h2

theorem no_dd_dropTrail {s : List Char} (h : ¬ ['_', '_'] <:+: s) :
    ¬ ['_', '_'] <:+: dropTrailUnderscore s :=
  fun hin => h (hin.trans (dropTrail_isPrefix s).isInfix)

/-- C10: `sanitizeFilename` returns only lowercase ASCII letters, digits and
    underscores, with no two consecutive underscores and no leading or
    trailing underscore. -/
theorem sanitizeFilename_shape (s : List Char) :
    (∀ c ∈ sanitizeFilename s,
        (97 ≤ c.toNat ∧ c.toNat ≤ 122) ∨ (48 ≤ c.toNat ∧ c.toNat ≤ 57) ∨ c = '_') ∧
    ¬ ['_', '_'] <:+: sanitizeFilename s ∧
    (sanitizeFilename s).head? ≠ some '_' ∧
    (sanitizeFilename s).getLast? ≠ some '_' := by
  unfold sanitizeFilename
  set s1 := s.map underscoreNonAlnum with hs1
  set s2 := collapseUnderscores s1 with hs2
  set s3 := dropLeadUnderscore s2 with hs3
  set s4 := dropTrailUnderscore s3 with hs4
  have hnodd2 : ¬ ['_', '_'] <:+: s2 := collapseUnderscores_no_dd s1
  have hnodd3 : ¬ ['_', '_'] <:+: s3 := no_dd_dropLead hnodd2
  have hnodd4 : ¬ ['_', '_'] <:+: s4 := no_dd_dropTrail hnodd3
  refine ⟨?_, ?_, ?_, ?_⟩
  · intro c hc
    rcases List.mem_map.mp hc with ⟨d, hd, hdc⟩
    have hd3 : d ∈ s3 := (dropTrail_isPrefix s3).sublist.mem hd
    have hd2 : d ∈ s2 := (dropLeadUnderscore_suffix s2).sublist.mem hd3
    have hd1 : d ∈ s1 ∨ d = '_' := collapseUnderscores_mem hd2
    have hclass : (97 ≤ d.toNat ∧ d.toNat ≤ 122) ∨ (65 ≤ d.toNat ∧ d.toNat ≤ 90) ∨
        (48 ≤ d.toNat ∧ d.toNat ≤ 57) ∨ d = '_' := by
      rcases hd1 with hd1 | hd1
      · rcases List.mem_map.mp hd1 with ⟨e, _, he⟩
        unfold underscoreNonAlnum at he
        split at he
        · next hcl => subst he; tauto
        · right; right; right; exact he.symm
      · tauto
    subst hdc
    rcases hclass with hcl | hcl | hcl | hcl
    · left
      rw [lowerChar_fix (by omega)]
      exact hcl
    · left
      have := lowerChar_toNat_upper hcl
      omega
    · right; left
      rw [lowerChar_fix (by omega)]
      exact hcl
    · subst hcl
      right; right
      rfl
  · intro h
    exact hnodd4 (dd_of_dd_map_lower h)
  · have hh3 : s3.head? ≠ some '_' := dropLead_head_ne hnodd2
    intro h
    rw [List.head?_map] at h
    cases hs : s4.head? with
    | none => rw [hs] at h; simp at h
    | some c =>
      rw [hs] at h
      simp at h
      have hc : c = '_' := lowerChar_eq_nonlower (by decide) h
      subst hc
      exact hh3 (head_of_isPrefix (dropTrail_isPrefix s3) hs)
  · intro h
    rw [List.getLast?_map] at h
    have hrev : s4.reverse = dropLeadUnderscore s3.reverse := by
      rw [hs4]
      unfold dropTrailUnderscore
      simp
    have hnodd3r : ¬ ['_', '_'] <:+: s3.reverse := fun hx =>
      hnodd3 (by simpa using List.reverse_infix.mpr hx)
    have hh : (dropLeadUnderscore s3.reverse).head? ≠ some '_' :=
      dropLead_head_ne hnodd3r
    rw [← hrev] at hh
    rw [← List.head?_reverse] at h
    cases hs : s4.reverse.head? with
    | none => rw [hs] at h; simp at h
    | some c =>
      rw [hs] at h
      simp at h
      have hc : c = '_' := lowerChar_eq_nonlower (by decide) h
      subst hc
      exact hh hs

theorem sanitizeFilename_shape_witness :
    ((97 ≤ ('a' : Char).toNat ∧ ('a' : Char).toNat ≤ 122) ∨
        (48 ≤ ('a' : Char).toNat ∧ ('a' : Char).toNat ≤ 57) ∨ ('a' : Char) = '_') ∧
    ¬ ['_', '_'] <:+: sanitizeFilename ['a', '_', '_', 'b'] :=
  ⟨(sanitizeFilename_shape ['a', '_', '_', 'b']).1 'a' (by decide),
    (sanitizeFilename_shape ['a', '_', '_', 'b']).2.1⟩

/- ===================== useApi / useApiMutation (frontend api hooks) ===================== -/

/-- Hook state `{data, loading, error}` of the fetch hook. -/
structure ApiState (T : Type) where
  data : Option T
  loading : Bool
  error : Option String

/-- Outcome of one `fetch` round trip as observed by the hook: an ok response
    whose JSON body parsed to `body`, a response with `response.ok` false, or
    a thrown exception (network failure or JSON parse failure) carrying its
    message. -/
inductive HttpOutcome (T : Type) where
  | success (status : Nat) (statusText : String) (body : T)
  | httpFailure (status : Nat) (statusText : String)
  | exn (message : String)

/-- The error string thrown for a non-ok response, built from the HTTP
    status. -/
def httpErrorMessage (status : Nat) (statusText : String) : String :=
  "HTTP " ++ toString status ++ ": " ++ statusText

/-- Headers built by both hooks: the content type always, the bearer
    credential exactly when a session token is present. -/
def useApiHeaders (token : Option String) : List (String × String) :=
  match token with
  | some t => [("Content-Type", "application/json"), ("Authorization", "Bearer " ++ t)]
  | none => [("Content-Type", "application/json")]

/-- Request method used by the fetch hook. -/
def useApiMethod : String := "GET"

/-- Final `{data, loading, error}` state produced by one run of `fetchData`
    in `useApi`: an ok response stores the parsed body, a non-ok status
    throws the status-built message which the catch stores as the error, and
    any other exception is stored likewise; `data` is reset in both failure
    branches. -/
def fetchDataResult {T : Type} (outcome : HttpOutcome T) : ApiState T :=
  match outcome with
  | HttpOutcome.success _ _ body => { data := some body, loading := false, error := none }
  | HttpOutcome.httpFailure status statusText =>
      { data := none, loading := false, error := some (httpErrorMessage status statusText) }
  | HttpOutcome.exn message => { data := none, loading := false, error := some message }

/-- Occasions on which `useApi` may call `fetchData`: a run of the effect
    (initial mount or a change of the dependency list) or an explicit call of
    the returned `refetch`. -/
inductive UseApiEvent where
  | depsChange
  | refetchCall
deriving DecidableEq

/-- Number of `fetchData` invocations over a sequence of hook events: the
    effect body calls `fetchData` only when `immediate` is set, while
    `refetch` (which is `fetchData` itself) always runs it. -/
def useApiFetchCount (immediate : Bool) : List UseApiEvent → Nat
  | [] => 0
  | UseApiEvent.depsChange :: es => (if immediate then 1 else 0) + useApiFetchCount immediate es
  | UseApiEvent.refetchCall :: es => 1 + useApiFetchCount immediate es

/-- C3: with `immediate:false` the hook issues no request, however many times
    the dependency list changes, until `refetch` is called. -/
theorem useApi_immediate_false_no_fetch (evs : List UseApiEvent)
    (h : UseApiEvent.refetchCall ∉ evs) : useApiFetchCount false evs = 0 := by
  induction evs with
  | nil => rfl
  | cons e es ih =>
    have h1 : UseApiEvent.refetchCall ∉ es := fun hx => h (List.mem_cons_of_mem _ hx)
    cases e with
    | depsChange => simpa [useApiFetchCount] using ih h1
    | refetchCall => exact absurd (List.mem_cons_self _ _) h

theorem useApi_immediate_false_no_fetch_witness :
    useApiFetchCount false [UseApiEvent.depsChange, UseApiEvent.depsChange] = 0 :=
  useApi_immediate_false_no_fetch _ (by decide)

/-- C6: the fetch hook attaches the bearer header exactly when a session
    token is present, uses GET, turns a non-ok status into the status-built
    error string with no data, and on success stores the parsed body with a
    null error. -/
theorem useApi_fetch_contract {T : Type} (tk statusText : String) (status : Nat) (body : T) :
    ("Authorization", "Bearer " ++ tk) ∈ useApiHeaders (some tk) ∧
    (∀ p ∈ useApiHeaders none, p.1 ≠ "Authorization") ∧
    useApiMethod = "GET" ∧
    (fetchDataResult ((HttpOutcome.httpFailure status statusText : HttpOutcome T))).error
        = some (httpErrorMessage status statusText) ∧
    (fetchDataResult ((HttpOutcome.httpFailure status statusText : HttpOutcome T))).data = none ∧
    (fetchDataResult (HttpOutcome.success status statusText body)).data = some body ∧
    (fetchDataResult (HttpOutcome.success status statusText body)).error = none := by
  refine ⟨by simp [useApiHeaders], ?_, rfl, rfl, rfl, rfl, rfl⟩
  intro p hp
  simp only [useApiHeaders, List.mem_singleton] at hp
  rw [hp]
  decide

theorem useApi_fetch_contract_witness :
    ("Authorization", "Bearer " ++ "tok") ∈ useApiHeaders (some "tok") ∧
    (fetchDataResult (HttpOutcome.httpFailure 500 "Server Error" : HttpOutcome Nat)).error
        = some (httpErrorMessage 500 "Server Error") :=
  ⟨(useApi_fetch_contract "tok" "Server Error" 500 (0 : Nat)).1,
    (useApi_fetch_contract "tok" "Server Error" 500 (0 : Nat)).2.2.2.1⟩

/-- Request assembled by the mutation hook's `mutate`: method as passed, the
    shared headers, and a body present exactly when a body argument was
    given, serialized by `JSON.stringify` (the abstract serializer
    argument). -/
structure MutationRequest where
  method : String
  headers : List (String × String)
  body : Option String

def mutateRequest {B : Type} (stringify : B → String) (token : Option String)
    (body : Option B) (method : String) : MutationRequest :=
  { method := method, headers := useApiHeaders token, body := body.map stringify }

/-- Value returned by `mutate` together with the final `error` state of the
    hook for one mutation round trip. -/
def mutateResult {T : Type} (outcome : HttpOutcome T) : Option T × Option String :=
  match outcome with
  | HttpOutcome.success _ _ body => (some body, none)
  | HttpOutcome.httpFailure status statusText =>
      (none, some (httpErrorMessage status statusText))
  | HttpOutcome.exn message => (none, some message)

/-- C5: `mutate` serializes a present body as JSON and omits an absent one;
    on an ok response it returns the parsed body and the error is null; on a
    non-ok status or a thrown exception it returns null and the error is a
    non-null string. -/
theorem useApiMutation_contract {B T : Type} (stringify : B → String)
    (token : Option String) (b : B) (method statusText message : String)
    (status : Nat) (body : T) :
    (mutateRequest stringify token (some b) method).body = some (stringify b) ∧
    (mutateRequest stringify token none method).body = none ∧
    mutateResult (HttpOutcome.success status statusText body) = (some body, none) ∧
    mutateResult ((HttpOutcome.httpFailure status statusText : HttpOutcome T))
        = (none, some (httpErrorMessage status statusText)) ∧
    mutateResult (HttpOutcome.exn message : HttpOutcome T) = (none, some message) :=
  ⟨rfl, rfl, rfl, rfl, rfl⟩

/- ===================== recap list pagination (RecapsOverview) ===================== -/

/-- Client-side has-more flag computed by the recaps overview:
    `(currentPage * pageSize) < totalRecaps`. -/
def clientHasMore (page pageSize count : Nat) : Bool :=
  decide (page * pageSize < count)

/-- Modelled from the spec: the backend recap list endpoint is not part of
    this repository; per the external-interface description a paginated list
    response carries the requested page slice of at most `page_size` rows
    together with the total `count`. -/
def recapsPageData {α : Type} (items : List α) (page pageSize : Nat) : List α :=
  (items.drop ((page - 1) * pageSize)).take pageSize

/-- C8: every paginated recap page shows at most `page_size` entries, and the
    client's has-more flag is true exactly when `page * page_size < count`. -/
theorem paginated_recaps_shape {α : Type} (items : List α) (page pageSize : Nat) :
    (recapsPageData items page pageSize).length ≤ pageSize ∧
    (clientHasMore page pageSize items.length = true ↔ page * pageSize < items.length) := by
  constructor
  · exact List.length_take_le pageSize (items.drop ((page - 1) * pageSize))
  · simp [clientHasMore]

/- ===================== useWebSocket reconnection ===================== -/

/-- Connection state of the `useWebSocket` hook: the reconnection counter
    (`reconnectCountRef`), the number of reconnection attempts scheduled so
    far, and the connection flag. -/
structure WsState where
  reconnectCount : Nat
  scheduledReconnects : Nat
  connected : Bool
deriving DecidableEq

/-- Socket events seen by the hook's handlers: `onopen`, and `onclose` with
    the close code. -/
inductive WsEvent where
  | opened
  | closed (code : Nat)
deriving DecidableEq

/-- One handler step of `useWebSocket`: `onopen` resets the counter, and
    `onclose` schedules one reconnection (a `connect` after the fixed
    interval) only when the close is not clean (code 1000) and the counter is
    below the configured bound, incrementing the counter. -/
def wsStep (reconnectAttempts : Nat) (s : WsState) : WsEvent → WsState
  | WsEvent.opened => { s with connected := true, reconnectCount := 0 }
  | WsEvent.closed code =>
    if code ≠ 1000 ∧ s.reconnectCount < reconnectAttempts then
      { connected := false, reconnectCount := s.reconnectCount + 1,
        scheduledReconnects := s.scheduledReconnects + 1 }
    else { s with connected := false }

def wsRun (reconnectAttempts : Nat) (s : WsState) (evs : List WsEvent) : WsState :=
  evs.foldl (wsStep reconnectAttempts) s

theorem wsStep_potential (ra : Nat) (s : WsState) (e : WsEvent) (hne : e ≠ WsEvent.opened) :
    (wsStep ra s e).scheduledReconnects + (ra - (wsStep ra s e).reconnectCount)
      = s.scheduledReconnects + (ra - s.reconnectCount) := by
  cases e with
  | opened => exact absurd rfl hne
  | closed code =>
    by_cases hc : code ≠ 1000 ∧ s.reconnectCount < ra
    · obtain ⟨h1, h2⟩ := hc
      simp only [wsStep, if_pos (And.intro h1 h2)]
      show s.scheduledReconnects + 1 + (ra - (s.reconnectCount + 1))
          = s.scheduledReconnects + (ra - s.reconnectCount)
      omega
    · simp only [wsStep, if_neg hc]

theorem wsRun_potential (ra : Nat) (evs : List WsEvent) (s : WsState)
    (hno : WsEvent.opened ∉ evs) :
    (wsRun ra s evs).scheduledReconnects + (ra - (wsRun ra s evs).reconnectCount)
      = s.scheduledReconnects + (ra - s.reconnectCount) := by
  induction evs generalizing s with
  | nil => rfl
  | cons e es ih =>
    have h1 : WsEvent.opened ∉ es := fun hx => hno (List.mem_cons_of_mem _ hx)
    have h2 : e ≠ WsEvent.opened := fun hx => hno (by rw [hx]; exact List.mem_cons_self _ _)
    have hstep := wsStep_potential ra s e h2
    calc (wsRun ra s (e :: es)).scheduledReconnects
          + (ra - (wsRun ra s (e :: es)).reconnectCount)
        = (wsRun ra (wsStep ra s e) es).scheduledReconnects
          + (ra - (wsRun ra (wsStep ra s e) es).reconnectCount) := rfl
      _ = (wsStep ra s e).scheduledReconnects + (ra - (wsStep ra s e).reconnectCount) := ih _ h1
      _ = s.scheduledReconnects + (ra - s.reconnectCount) := hstep

/-- C7: a clean close (code 1000) never schedules a reconnection, and from
    the initial state a run of close events with no successful open schedules
    at most `reconnectAttempts` reconnections. -/
theorem websocket_reconnect_policy (ra : Nat) (s : WsState) (evs : List WsEvent)
    (hinit : s.reconnectCount = 0 ∧ s.scheduledReconnects = 0)
    (hno : WsEvent.opened ∉ evs) :
    wsStep ra s (WsEvent.closed 1000) = { s with connected := false } ∧
    (wsRun ra s evs).scheduledReconnects ≤ ra := by
  constructor
  · simp only [wsStep]
    rw [if_neg (by simp)]
  · have := wsRun_potential ra evs s hno
    rw [hinit.1, hinit.2] at this
    omega

theorem websocket_reconnect_policy_witness :
    (wsRun 1 { reconnectCount := 0, scheduledReconnects := 0, connected := false }
        [WsEvent.closed 1006, WsEvent.closed 1006]).scheduledReconnects ≤ 1 :=
  (websocket_reconnect_policy 1 _ _ (by decide) (by decide)).2

/- ===================== RecapEditor auto-save and manual save ===================== -/

/-- Whitespace characters removed by `String.prototype.trim` on the strings
    this code handles. -/
def isSpaceChar (c : Char) : Bool :=
  decide (c = ' ' ∨ c = '\t' ∨ c = '\n' ∨ c = '\r')

/-- Model of JavaScript `trim`: whitespace removed from both ends. -/
def trimStr (s : List Char) : List Char :=
  ((s.dropWhile isSpaceChar).reverse.dropWhile isSpaceChar).reverse

/-- Editor component state relevant to saving: title and content, the
    unsaved-changes and saving flags, the pending auto-save timer (its
    absolute fire time), and counters of `onSave` calls and alert prompts. -/
structure EditorS where
  title : List Char
  content : List Char
  unsaved : Bool
  isSaving : Bool
  timer : Option Nat
  saves : Nat
  alerts : Nat
deriving DecidableEq

/-- The auto-save effect: clear any pending timer, then re-arm a 2000 ms
    timer exactly when there are unsaved changes. -/
def autoSaveEffect (now : Nat) (s : EditorS) : EditorS :=
  if s.unsaved then { s with timer := some (now + 2000) } else { s with timer := none }

/-- `handleAutoSave`: saves only when there are unsaved changes, no save is
    in flight, and the trimmed title and trimmed content are both nonempty;
    a save runs `onSave`, clears the unsaved flag, and resets the saving flag
    in its `finally`. -/
def handleAutoSave (s : EditorS) : EditorS :=
  if s.unsaved ∧ ¬ s.isSaving ∧ trimStr s.title ≠ [] ∧ trimStr s.content ≠ [] then
    { s with saves := s.saves + 1, unsaved := false, isSaving := false }
  else s

/-- `handleSave`: an empty (or whitespace-only) title alerts the user and
    returns without saving; otherwise `onSave` runs and the unsaved flag is
    cleared, with the saving flag reset in `finally`. -/
def handleSave (s : EditorS) : EditorS :=
  if trimStr s.title = [] then { s with alerts := s.alerts + 1 }
  else { s with saves := s.saves + 1, unsaved := false, isSaving := false }

/-- Editor events: an edit (new content, which marks unsaved state), a click
    on Save, and the auto-save timer reaching its fire time. -/
inductive EdEvent where
  | edit (newContent : List Char)
  | clickSave
  | fire
deriving DecidableEq

/-- One editor step at wall-clock time `t`; after each handler the auto-save
    effect re-runs (its dependency list contains the unsaved flag and the
    timer).  A timer cleared before its fire time has no effect. -/
def edStep (ev : Nat × EdEvent) (s : EditorS) : EditorS :=
  match ev with
  | (t, EdEvent.edit c) => autoSaveEffect t { s with content := c, unsaved := true }
  | (t, EdEvent.clickSave) => autoSaveEffect t (handleSave s)
  | (t, EdEvent.fire) =>
    if s.timer = some t then autoSaveEffect t (handleAutoSave { s with timer := none })
    else s

def edRun (evs : List (Nat × EdEvent)) (s : EditorS) : EditorS :=
  evs.foldl (fun st e => edStep e st) s

theorem edStep_fire_eq (t : Nat) (s : EditorS) :
    edStep (t, EdEvent.fire) s
      = if s.timer = some t then autoSaveEffect t (handleAutoSave { s with timer := none })
        else s := rfl

theorem edStep_fire_of_saved {s : EditorS} (h : s.unsaved = false) (t : Nat) :
    (edStep (t, EdEvent.fire) s).saves = s.saves ∧
    (edStep (t, EdEvent.fire) s).unsaved = false := by
  rw [edStep_fire_eq]
  by_cases ht : s.timer = some t
  · rw [if_pos ht]
    unfold handleAutoSave autoSaveEffect
    rw [if_neg (by simp [h])]
    simp [h]
  · rw [if_neg ht]
    exact ⟨rfl, h⟩

theorem autoSaveEffect_proj (now : Nat) (s : EditorS) :
    (autoSaveEffect now s).unsaved = s.unsaved ∧ (autoSaveEffect now s).saves = s.saves := by
  unfold autoSaveEffect
  split <;> exact ⟨rfl, rfl⟩

/-- C2: once the unsaved flag is clear, timer fires alone never produce a
    save; a Save click with a nonempty title clears the flag; and a timer
    fire that does save clears the flag.  Hence the auto-save callback saves
    at most once per idle window — another edit must arrive before a further
    auto-save — and a manual save prevents the pending timer from producing a
    second save of the same content. -/
theorem autosave_once_per_idle_window :
    (∀ (s : EditorS) (evs : List (Nat × EdEvent)), s.unsaved = false →
        (∀ e ∈ evs, e.2 = EdEvent.fire) → (edRun evs s).saves = s.saves) ∧
    (∀ (s : EditorS) (t : Nat), trimStr s.title ≠ [] →
        (edStep (t, EdEvent.clickSave) s).unsaved = false) ∧
    (∀ (s : EditorS) (t : Nat), s.saves < (edStep (t, EdEvent.fire) s).saves →
        (edStep (t, EdEvent.fire) s).unsaved = false) := by
  refine ⟨?_, ?_, ?_⟩
  · intro s evs
    induction evs generalizing s with
    | nil => intro _ _; rfl
    | cons e es ih =>
      intro h hall
      obtain ⟨t, ev⟩ := e
      have hev : ev = EdEvent.fire := hall (t, ev) (List.mem_cons_self _ _)
      subst hev
      have hstep := edStep_fire_of_saved h t
      have hrun : edRun ((t, EdEvent.fire) :: es) s = edRun es (edStep (t, EdEvent.fire) s) := rfl
      rw [hrun, ih _ hstep.2 (fun e he => hall e (List.mem_cons_of_mem _ he)), hstep.1]
  · intro s t ht
    have hre : edStep (t, EdEvent.clickSave) s = autoSaveEffect t (handleSave s) := rfl
    rw [hre]
    unfold handleSave
    rw [if_neg ht]
    unfold autoSaveEffect
    rw [if_neg (by simp)]
  · intro s t hlt
    by_cases ht : s.timer = some t
    · have hre : edStep (t, EdEvent.fire) s
          = autoSaveEffect t (handleAutoSave { s with timer := none }) := by
        rw [edStep_fire_eq, if_pos ht]
      rw [hre] at hlt ⊢
      rw [(autoSaveEffect_proj t _).1]
      rw [(autoSaveEffect_proj t _).2] at hlt
      unfold handleAutoSave at hlt ⊢
      split at hlt
      · next hg => rw [if_pos hg]
      · next hg => exact absurd hlt (by simp)
    · have hre : edStep (t, EdEvent.fire) s = s := by
        rw [edStep_fire_eq, if_neg ht]
      rw [hre] at hlt
      exact absurd hlt (by simp)

def edSaved : EditorS :=
  { title := ['t'], content := ['c'], unsaved := false, isSaving := false,
    timer := some 2000, saves := 3, alerts := 0 }

theorem autosave_once_per_idle_window_witness :
    (edRun [(2000, EdEvent.fire), (9999, EdEvent.fire)] edSaved).saves = edSaved.saves :=
  autosave_once_per_idle_window.1 edSaved _ (by decide) (by decide)

/-- C9: clicking Save with an empty or whitespace-only title prompts the
    user, never invokes `onSave`, and leaves the unsaved-changes state
    unchanged. -/
theorem save_blocked_on_empty_title (s : EditorS) (t : Nat)
    (h : trimStr s.title = []) :
    (edStep (t, EdEvent.clickSave) s).saves = s.saves ∧
    (edStep (t, EdEvent.clickSave) s).alerts = s.alerts + 1 ∧
    (edStep (t, EdEvent.clickSave) s).unsaved = s.unsaved := by
  have hre : edStep (t, EdEvent.clickSave) s = autoSaveEffect t (handleSave s) := rfl
  rw [hre]
  unfold handleSave
  rw [if_pos h]
  unfold autoSaveEffect
  split <;> exact ⟨rfl, rfl, rfl⟩

def edBlank : EditorS :=
  { title := [' '], content := ['c'], unsaved := true, isSaving := false,
    timer := none, saves := 0, alerts := 0 }

theorem save_blocked_on_empty_title_witness :
    (edStep (5, EdEvent.clickSave) edBlank).saves = edBlank.saves ∧
    (edStep (5, EdEvent.clickSave) edBlank).alerts = edBlank.alerts + 1 ∧
    (edStep (5, EdEvent.clickSave) edBlank).unsaved = edBlank.unsaved :=
  save_blocked_on_empty_title edBlank 5 (by decide)

/- ===================== Yahoo OAuth code deduplication ===================== -/

/-- State of the Yahoo connection component relevant to callback handling:
    the processed-codes set (modelled as a list), the scheduled 5-minute
    removals, and the token-exchange requests sent so far. -/
structure YahooState where
  processed : List String
  expiries : List (Nat × String)
  requests : List (Nat × String)
deriving DecidableEq

def emptyYahooState : YahooState := { processed := [], expiries := [], requests := [] }

/-- `handleYahooCallback` at time `t` for authorization code `code` (the same
    function serves the popup path, the URL query-parameter path and the
    manual paste path): an already-processed code returns immediately;
    otherwise the code is recorded, its removal is scheduled 300000 ms
    later, and the token-exchange request is sent. -/
def handleYahooCallback (t : Nat) (code : String) (s : YahooState) : YahooState :=
  if code ∈ s.processed then s
  else
    { processed := code :: s.processed,
      expiries := (t + 300000, code) :: s.expiries,
      requests := (t, code) :: s.requests }

/-- The scheduled timeout firing at time `t` for `code`, removing the code
    from the processed set; a timeout that was never scheduled does
    nothing. -/
def expireCode (t : Nat) (code : String) (s : YahooState) : YahooState :=
  if (t, code) ∈ s.expiries then
    { processed := s.processed.erase code,
      expiries := s.expiries.erase (t, code),
      requests := s.requests }
  else s

/-- Component events: a callback invocation for some code, or a scheduled
    expiry firing. -/
inductive YahooEvent where
  | callback (t : Nat) (code : String)
  | expire (t : Nat) (code : String)
deriving DecidableEq

def yahooEventTime : YahooEvent → Nat
  | YahooEvent.callback t _ => t
  | YahooEvent.expire t _ => t

def yahooStep (s : YahooState) : YahooEvent → YahooState
  | YahooEvent.callback t c => handleYahooCallback t c s
  | YahooEvent.expire t c => expireCode t c s

def yahooRun (s : YahooState) (evs : List YahooEvent) : YahooState :=
  evs.foldl yahooStep s

theorem handleYahooCallback_mem {t : Nat} {code : String} {s : YahooState}
    (h : code ∈ s.processed) : handleYahooCallback t code s = s := by
  unfold handleYahooCallback
  rw [if_pos h]

/-- Invariant carried through the 5-minute window: the code is in the
    processed set and its only scheduled removal is at time `T`. -/
def YahooInv (code : String) (T : Nat) (s : YahooState) : Prop :=
  code ∈ s.processed ∧ ∀ p ∈ s.expiries, p.2 = code → p.1 = T

theorem yahooInv_step {code : String} {T : Nat} {s : YahooState} {e : YahooEvent}
    (hinv : YahooInv code T s) (ht : yahooEventTime e < T) :
    YahooInv code T (yahooStep s e) := by
  obtain ⟨hmem, hexp⟩ := hinv
  cases e with
  | callback t c =>
    show YahooInv code T (handleYahooCallback t c s)
    unfold handleYahooCallback
    by_cases hc : c ∈ s.processed
    · rw [if_pos hc]
      exact ⟨hmem, hexp⟩
    · rw [if_neg hc]
      have hcc : c ≠ code := fun h => hc (h ▸ hmem)
      refine ⟨List.mem_cons_of_mem _ hmem, ?_⟩
      intro p hp hpc
      rcases List.mem_cons.mp hp with hp | hp
      · rw [hp] at hpc
        exact absurd hpc hcc
      · exact hexp p hp hpc
  | expire t c =>
    show YahooInv code T (expireCode t c s)
    unfold expireCode
    by_cases hc : (t, c) ∈ s.expiries
    · rw [if_pos hc]
      have hcc : c ≠ code := by
        intro h
        subst h
        have := hexp (t, c) hc rfl
        simp only [yahooEventTime] at ht
        omega
      refine ⟨(List.mem_erase_of_ne (Ne.symm hcc)).mpr hmem, ?_⟩
      · intro p hp hpc
        exact hexp p ((List.erase_sublist _ _).mem hp) hpc
    · rw [if_neg hc]
      exact ⟨hmem, hexp⟩

theorem yahooInv_run {code : String} {T : Nat} {s : YahooState} {evs : List YahooEvent}
    (hinv : YahooInv code T s) (hevs : ∀ e ∈ evs, yahooEventTime e < T) :
    YahooInv code T (yahooRun s evs) := by
  induction evs generalizing s with
  | nil => exact hinv
  | cons e es ih =>
    have h1 : yahooRun s (e :: es) = yahooRun (yahooStep s e) es := rfl
    rw [h1]
    exact ih (yahooInv_step hinv (hevs e (List.mem_cons_self _ _)))
      (fun x hx => hevs x (List.mem_cons_of_mem _ hx))

/-- C4: after a code is first submitted at `t0`, then throughout any
    component activity strictly before the 5-minute expiry `t0 + 300000` the
    code stays in the processed set, and resubmitting it (from either
    delivery path) is a no-op — in particular no second token-exchange
    request is sent for that code. -/
theorem yahoo_code_dedup (t0 t1 : Nat) (code : String) (evs : List YahooEvent)
    (hevs : ∀ e ∈ evs, yahooEventTime e < t0 + 300000) :
    code ∈ (yahooRun (handleYahooCallback t0 code emptyYahooState) evs).processed ∧
    handleYahooCallback t1 code (yahooRun (handleYahooCallback t0 code emptyYahooState) evs)
      = yahooRun (handleYahooCallback t0 code emptyYahooState) evs := by
  have hinv0 : YahooInv code (t0 + 300000) (handleYahooCallback t0 code emptyYahooState) := by
    unfold handleYahooCallback emptyYahooState
    rw [if_neg (by simp)]
    refine ⟨List.mem_cons_self _ _, ?_⟩
    intro p hp hpc
    simp at hp
    rw [hp]
  have hinv := yahooInv_run hinv0 hevs
  exact ⟨hinv.1, handleYahooCallback_mem hinv.1⟩

theorem yahoo_code_dedup_witness :
    let s1 := yahooRun (handleYahooCallback 0 "ABC123" emptyYahooState)
        [YahooEvent.callback 50 "other", YahooEvent.expire 100 "ABC123"]
    "ABC123" ∈ s1.processed ∧ handleYahooCallback 200 "ABC123" s1 = s1 :=
  yahoo_code_dedup 0 200 "ABC123"
    [YahooEvent.callback 50 "other", YahooEvent.expire 100 "ABC123"] (by decide)

/- ===================== HTML to Markdown (exportAsMarkdown) ===================== -/

/-- Case-insensitive literal match (regex `i` flag): strips `pat` from the
    front of `s`, comparing case-folded characters, returning the rest. -/
def stripCi : List Char → List Char → Option (List Char)
  | [], s => some s
  | _ :: _, [] => none
  | p :: ps, c :: cs => if lowerChar p = lowerChar c then stripCi ps cs else none

/-- `[^>]*>`: skip to the first `>` and past it (the character class cannot
    match `>`, so no backtracking arises). -/
def skipAttrs : List Char → Option (List Char)
  | [] => none
  | c :: cs => if c = '>' then some cs else skipAttrs cs

/-- Lazy body `(.*?)` up to a literal close pattern, with `.` not matching a
    newline: at each position the close pattern is tried first; reaching a
    newline or the end of the input fails the whole match attempt. -/
def findBody (close : List Char) : List Char → Option (List Char × List Char)
  | [] => none
  | c :: cs =>
    match stripCi close (c :: cs) with
    | some rest => some ([], rest)
    | none =>
      if c = '\n' then none
      else
        match findBody close cs with
        | some (body, rest) => some (c :: body, rest)
        | none => none

theorem stripCi_length {p s r : List Char} (h : stripCi p s = some r) :
    r.length ≤ s.length := by
  induction p generalizing s with
  | nil =>
    simp [stripCi] at h
    rw [h]
  | cons p ps ih =>
    match s with
    | [] => exact absurd h (by simp [stripCi])
    | c :: cs =>
      unfold stripCi at h
      by_cases hl : lowerChar p = lowerChar c
      · rw [if_pos hl] at h
        exact le_trans (ih h) (by simp)
      · rw [if_neg hl] at h
        exact absurd h (by simp)

theorem stripCi_cons_length {p : Char} {ps s r : List Char}
    (h : stripCi (p :: ps) s = some r) : r.length < s.length := by
  match s with
  | [] => exact absurd h (by simp [stripCi])
  | c :: cs =>
    unfold stripCi at h
    by_cases hl : lowerChar p = lowerChar c
    · rw [if_pos hl] at h
      have := stripCi_length h
      simp
      omega
    · rw [if_neg hl] at h
      exact absurd h (by simp)

theorem skipAttrs_length {s r : List Char} (h : skipAttrs s = some r) :
    r.length < s.length := by
  induction s with
  | nil => exact absurd h (by simp [skipAttrs])
  | cons c cs ih =>
    unfold skipAttrs at h
    by_cases hc : c = '>'
    · rw [if_pos hc] at h
      simp at h
      rw [h]
      simp
    · rw [if_neg hc] at h
      have := ih h
      simp
      omega

theorem findBody_length {close s : List Char} {b r : List Char}
    (h : findBody close s = some (b, r)) : r.length ≤ s.length := by
  induction s generalizing b with
  | nil => exact absurd h (by simp [findBody])
  | cons c cs ih =>
    unfold findBody at h
    match hs : stripCi close (c :: cs) with
    | some rest =>
      rw [hs] at h
      simp at h
      rw [← h.2]
      exact stripCi_length hs
    | none =>
      rw [hs] at h
      by_cases hc : c = '\n'
      · rw [if_pos hc] at h
        exact absurd h (by simp)
      · rw [if_neg hc] at h
        match hf : findBody close cs with
        | some (body, rest) =>
          rw [hf] at h
          simp at h
          rw [h.2] at hf
          exact le_trans (ih hf) (by simp)
        | none =>
          rw [hf] at h
          exact absurd h (by simp)

/-- Attempt at the current position to match `<tag[^>]*>(.*?)</tag>`,
    returning the captured body and the rest of the input. -/
def tryTag (tag : List Char) : List Char → Option (List Char × List Char)
  | [] => none
  | c :: rest =>
    if c = '<' then
      match stripCi tag rest with
      | some afterTag =>
        match skipAttrs afterTag with
        | some afterGt => findBody ('<' :: '/' :: (tag ++ ['>'])) afterGt
        | none => none
      | none => none
    else none

theorem tryTag_length {tag s : List Char} {b r : List Char}
    (h : tryTag tag s = some (b, r)) : r.length < s.length := by
  match s with
  | [] => exact absurd h (by simp [tryTag])
  | c :: rest =>
    simp only [tryTag] at h
    split at h
    · split at h
      · next afterTag h1 =>
        split at h
        · next afterGt h2 =>
          have l1 := stripCi_length h1
          have l2 := skipAttrs_length h2
          have l3 := findBody_length h
          simp
          omega
        · exact absurd h (by simp)
      · exact absurd h (by simp)
    · exact absurd h (by simp)

/-- Global replacement (`/g`) of `<tag[^>]*>(.*?)</tag>` by `mk body`:
    left-to-right scan, resuming after each replacement. -/
def replaceTagPair (tag : List Char) (mk : List Char → List Char) (s : List Char) :
    List Char :=
  match s with
  | [] => []
  | c :: cs =>
    match h : tryTag tag (c :: cs) with
    | some (body, rest) => mk body ++ replaceTagPair tag mk rest
    | none => c :: replaceTagPair tag mk cs
termination_by s.length
decreasing_by
  · exact tryTag_length h
  · simp

/-- Attempt to match an opening tag `<tag[^>]*>`. -/
def tryOpen (tag : List Char) : List Char → Option (List Char)
  | [] => none
  | c :: rest =>
    if c = '<' then
      match stripCi tag rest with
      | some afterTag => skipAttrs afterTag
      | none => none
    else none

theorem tryOpen_length {tag s r : List Char} (h : tryOpen tag s = some r) :
    r.length < s.length := by
  match s with
  | [] => exact absurd h (by simp [tryOpen])
  | c :: rest =>
    simp only [tryOpen] at h
    split at h
    · split at h
      · next afterTag h1 =>
        have l1 := stripCi_length h1
        have l2 := skipAttrs_length h
        simp
        omega
      · exact absurd h (by simp)
    · exact absurd h (by simp)

/-- Global removal (`/g`, replacement `''`) of an opening tag
    `<tag[^>]*>`. -/
def removeOpenTag (tag : List Char) (s : List Char) : List Char :=
  match s with
  | [] => []
  | c :: cs =>
    match h : tryOpen tag (c :: cs) with
    | some rest => removeOpenTag tag rest
    | none => c :: removeOpenTag tag cs
termination_by s.length
decreasing_by
  · exact tryOpen_length h
  · simp

/-- Global replacement (`/g`) of the literal close tag `</tag>` by `rep`. -/
def replaceClose (tag rep : List Char) (s : List Char) : List Char :=
  match s with
  | [] => []
  | c :: cs =>
    match h : stripCi ('<' :: '/' :: (tag ++ ['>'])) (c :: cs) with
    | some rest => rep ++ replaceClose tag rep rest
    | none => c :: replaceClose tag rep cs
termination_by s.length
decreasing_by
  · exact stripCi_cons_length h
  · simp

def hrefMarker : List Char := ['h', 'r', 'e', 'f', '=', '"']

/-- After `href="`: greedy `([^"]*)` up to the closing quote (the class
    cannot match `"`), then `[^>]*>`, then the lazy link text up to the
    literal `</a>`. -/
def tryAnchorTail (rest : List Char) : Option (List Char × List Char × List Char) :=
  match rest.dropWhile (fun c => c ≠ '"') with
  | [] => none
  | _ :: r2 =>
    match skipAttrs r2 with
    | some r3 =>
      match findBody ['<', '/', 'a', '>'] r3 with
      | some (text, r4) => some (rest.takeWhile (fun c => c ≠ '"'), text, r4)
      | none => none
    | none => none

/-- Backtracking of the greedy `[^>]*` before `href="`: occurrences of the
    marker inside the attribute run are tried rightmost first. -/
def tryAnchorRun (run tl : List Char) : Option (List Char × List Char × List Char) :=
  match run with
  | [] => none
  | c :: rest =>
    match tryAnchorRun rest tl with
    | some res => some res
    | none =>
      match stripCi hrefMarker (c :: rest) with
      | some post => tryAnchorTail (post ++ tl)
      | none => none

/-- Attempt to match `<a[^>]*href="([^"]*)"[^>]*>(.*?)</a>` at the current
    position (the attribute run is the maximal `>`-free stretch after
    `<a`). -/
def tryAnchor : List Char → Option (List Char × List Char × List Char)
  | [] => none
  | c :: rest =>
    if c = '<' then
      match stripCi ['a'] rest with
      | some afterA =>
        tryAnchorRun (afterA.takeWhile (fun x => x ≠ '>')) (afterA.dropWhile (fun x => x ≠ '>'))
      | none => none
    else none

theorem tryAnchorTail_length {rest : List Char} {a b r : List Char}
    (h : tryAnchorTail rest = some (a, b, r)) : r.length ≤ rest.length := by
  unfold tryAnchorTail at h
  split at h
  · exact absurd h (by simp)
  · next x r2 hdrop =>
    split at h
    · next r3 h3 =>
      split at h
      · next text r4 h4 =>
        simp at h
        have l4 := findBody_length h4
        have l3 := skipAttrs_length h3
        have l2 : (x :: r2).length ≤ rest.length := by
          rw [← hdrop]
          exact ((List.dropWhile_sublist _).length_le)
        simp at l2
        rw [← h.2.2]
        omega
      · exact absurd h (by simp)
    · exact absurd h (by simp)

theorem tryAnchorRun_length {run tl : List Char} {a b r : List Char}
    (h : tryAnchorRun run tl = some (a, b, r)) : r.length ≤ run.length + tl.length := by
  induction run with
  | nil => exact absurd h (by simp [tryAnchorRun])
  | cons c rest ih =>
    unfold tryAnchorRun at h
    split at h
    · next res hres =>
      simp at h
      rw [h] at hres
      have := ih hres
      simp
      omega
    · split at h
      · next post hpost =>
        have l1 := tryAnchorTail_length h
        have l2 := stripCi_cons_length hpost
        simp at l2 ⊢
        rw [List.length_append] at l1
        omega
      · exact absurd h (by simp)

theorem tryAnchor_length {s : List Char} {a b r : List Char}
    (h : tryAnchor s = some (a, b, r)) : r.length < s.length := by
  match s with
  | [] => exact absurd h (by simp [tryAnchor])
  | c :: rest =>
    simp only [tryAnchor] at h
    split at h
    · split at h
      · next afterA hA =>
        have l1 := tryAnchorRun_length h
        have l2 := stripCi_length hA
        have l3 : (afterA.takeWhile (fun x => x ≠ '>')).length
            + (afterA.dropWhile (fun x => x ≠ '>')).length = afterA.length := by
          rw [← List.length_append, List.takeWhile_append_dropWhile]
        simp
        omega
      · exact absurd h (by simp)
    · exact absurd h (by simp)

/-- Global replacement (`/g`) of anchors by `[text](href)`. -/
def replaceAnchor (s : List Char) : List Char :=
  match s with
  | [] => []
  | c :: cs =>
    match h : tryAnchor (c :: cs) with
    | some (href, text, rest) =>
        '[' :: (text ++ ']' :: '(' :: (href ++ ')' :: replaceAnchor rest))
    | none => c :: replaceAnchor cs
termination_by s.length
decreasing_by
  · exact tryAnchor_length h
  · simp

/-- `/<[^>]*>/g` replaced by the empty string: strips the remaining tags; a
    `<` with no later `>` is left in place. -/
def stripTags (s : List Char) : List Char :=
  match s with
  | [] => []
  | c :: cs =>
    if c = '<' then
      match h : skipAttrs cs with
      | some rest => stripTags rest
      | none => c :: stripTags cs
    else c :: stripTags cs
termination_by s.length
decreasing_by
  · exact Nat.lt_trans (skipAttrs_length h) (by simp)
  · simp
  · simp

def dropNl (s : List Char) : List Char := s.dropWhile (fun c => c = '\n')

/-- `/\n{3,}/g` replaced by two newlines: every run of three or more
    newlines collapses to exactly two. -/
def collapseNl (s : List Char) : List Char :=
  match s with
  | [] => []
  | [c] => [c]
  | [c, d] => [c, d]
  | c :: d :: e :: cs =>
    if c = '\n' ∧ d = '\n' ∧ e = '\n' then '\n' :: '\n' :: collapseNl (dropNl cs)
    else c :: collapseNl (d :: e :: cs)
termination_by s.length
decreasing_by
  · have := (@List.dropWhile_sublist Char cs (fun c => c = '\n')).length_le
    simp [dropNl]
    omega
  · simp

/-- Replacement builders of the pipeline. -/
def headingMk (n : Nat) (body : List Char) : List Char :=
  List.replicate n '#' ++ ' ' :: (body ++ ['\n'])

def paragraphMk (body : List Char) : List Char := body ++ ['\n', '\n']

def boldMk (body : List Char) : List Char := '*' :: '*' :: (body ++ ['*', '*'])

def italicMk (body : List Char) : List Char := '*' :: (body ++ ['*'])

def listItemMk (body : List Char) : List Char := '-' :: ' ' :: (body ++ ['\n'])

def quoteMk (body : List Char) : List Char := '>' :: ' ' :: (body ++ ['\n'])

/-- The ordered substitution pipeline of `exportAsMarkdown`: headings h1-h6,
    paragraphs, strong/b, em/i, list tags, list items, blockquotes, links,
    a final strip of remaining tags, collapse of runs of three or more
    newlines, and a trim. -/
def convertMarkdown (s : List Char) : List Char :=
  trimStr (collapseNl (stripTags (replaceAnchor
    (replaceTagPair ['b', 'l', 'o', 'c', 'k', 'q', 'u', 'o', 't', 'e'] quoteMk
    (replaceTagPair ['l', 'i'] listItemMk
    (replaceClose ['o', 'l'] ['\n']
    (removeOpenTag ['o', 'l']
    (replaceClose ['u', 'l'] ['\n']
    (removeOpenTag ['u', 'l']
    (replaceTagPair ['i'] italicMk
    (replaceTagPair ['e', 'm'] italicMk
    (replaceTagPair ['b'] boldMk
    (replaceTagPair ['s', 't', 'r', 'o', 'n', 'g'] boldMk
    (replaceTagPair ['p'] paragraphMk
    (replaceTagPair ['h', '6'] (headingMk 6)
    (replaceTagPair ['h', '5'] (headingMk 5)
    (replaceTagPair ['h', '4'] (headingMk 4)
    (replaceTagPair ['h', '3'] (headingMk 3)
    (replaceTagPair ['h', '2'] (headingMk 2)
    (replaceTagPair ['h', '1'] (headingMk 1) s))))))))))))))))))))

/-- HTML generated for a document of plain paragraphs: each paragraph text
    wrapped in `<p>...</p>`. -/
def genHtml : List (List Char) → List Char
  | [] => []
  | t :: ts => '<' :: 'p' :: '>' :: (t ++ '<' :: '/' :: 'p' :: '>' :: genHtml ts)

/-- The markdown bodies produced by the paragraph conversion. -/
def mdParas : List (List Char) → List Char
  | [] => []
  | t :: ts => t ++ '\n' :: '\n' :: mdParas ts

theorem lowerChar_ne_lt {c : Char} (hc : c ≠ '<') : lowerChar '<' ≠ lowerChar c := by
  intro h
  have h1 : lowerChar '<' = '<' := by decide
  rw [h1] at h
  exact hc (lowerChar_eq_nonlower (by decide) h.symm)

theorem stripCi_self (p r : List Char) : stripCi p (p ++ r) = some r := by
  induction p with
  | nil => rfl
  | cons c cs ih =>
    show stripCi (c :: cs) (c :: (cs ++ r)) = some r
    unfold stripCi
    rw [if_pos rfl]
    exact ih

theorem stripCi_head_ne {p c : Char} (ps cs : List Char) (h : lowerChar p ≠ lowerChar c) :
    stripCi (p :: ps) (c :: cs) = none := by
  unfold stripCi
  rw [if_neg h]

theorem tryTag_not_lt (tag : List Char) {c : Char} (cs : List Char) (hc : c ≠ '<') :
    tryTag tag (c :: cs) = none := by
  simp only [tryTag]
  rw [if_neg hc]

theorem tryOpen_not_lt (tag : List Char) {c : Char} (cs : List Char) (hc : c ≠ '<') :
    tryOpen tag (c :: cs) = none := by
  simp only [tryOpen]
  rw [if_neg hc]

theorem tryAnchor_not_lt {c : Char} (cs : List Char) (hc : c ≠ '<') :
    tryAnchor (c :: cs) = none := by
  simp only [tryAnchor]
  rw [if_neg hc]

theorem rtp_nil (tag : List Char) (mk : List Char → List Char) :
    replaceTagPair tag mk [] = [] := by
  rw [replaceTagPair]

theorem rtp_cons_none {tag : List Char} {c : Char} {cs : List Char}
    (mk : List Char → List Char) (h : tryTag tag (c :: cs) = none) :
    replaceTagPair tag mk (c :: cs) = c :: replaceTagPair tag mk cs := by
  rw [replaceTagPair]
  split
  · next body rest heq => rw [heq] at h; cases h
  · rfl

theorem rtp_cons_some {tag : List Char} {c : Char} {cs body rest : List Char}
    (mk : List Char → List Char) (h : tryTag tag (c :: cs) = some (body, rest)) :
    replaceTagPair tag mk (c :: cs) = mk body ++ replaceTagPair tag mk rest := by
  rw [replaceTagPair]
  split
  · next b2 r2 heq =>
    rw [h] at heq
    simp at heq
    rw [heq.1, heq.2]
  · next heq => rw [heq] at h; cases h

theorem rot_nil (tag : List Char) : removeOpenTag tag [] = [] := by
  rw [removeOpenTag]

theorem rot_cons_none {tag : List Char} {c : Char} {cs : List Char}
    (h : tryOpen tag (c :: cs) = none) :
    removeOpenTag tag (c :: cs) = c :: removeOpenTag tag cs := by
  rw [removeOpenTag]
  split
  · next rest heq => rw [heq] at h; cases h
  · rfl

theorem rc_nil (tag rep : List Char) : replaceClose tag rep [] = [] := by
  rw [replaceClose]

theorem rc_cons_none {tag rep : List Char} {c : Char} {cs : List Char}
    (h : stripCi ('<' :: '/' :: (tag ++ ['>'])) (c :: cs) = none) :
    replaceClose tag rep (c :: cs) = c :: replaceClose tag rep cs := by
  rw [replaceClose]
  split
  · next rest heq => rw [heq] at h; cases h
  · rfl

theorem ra_nil : replaceAnchor [] = [] := by
  rw [replaceAnchor]

theorem ra_cons_none {c : Char} {cs : List Char} (h : tryAnchor (c :: cs) = none) :
    replaceAnchor (c :: cs) = c :: replaceAnchor cs := by
  rw [replaceAnchor]
  split
  · next href text rest heq => rw [heq] at h; cases h
  · rfl

theorem stripTags_nil : stripTags [] = [] := by rw [stripTags]

theorem stripTags_cons_ne {c : Char} {cs : List Char} (hc : c ≠ '<') :
    stripTags (c :: cs) = c :: stripTags cs := by
  rw [stripTags]
  split
  · next h1 => exact absurd h1 hc
  · rfl

theorem collapseNl_nil : collapseNl [] = [] := by rw [collapseNl]

theorem collapseNl_one (c : Char) : collapseNl [c] = [c] := by rw [collapseNl]

theorem collapseNl_two (c d : Char) : collapseNl [c, d] = [c, d] := by rw [collapseNl]

theorem collapseNl_cons3 (c d e : Char) (cs : List Char)
    (h : ¬ (c = '\n' ∧ d = '\n' ∧ e = '\n')) :
    collapseNl (c :: d :: e :: cs) = c :: collapseNl (d :: e :: cs) := by
  rw [collapseNl]
  rw [if_neg h]

theorem collapseNl_cons3t (cs : List Char) :
    collapseNl ('\n' :: '\n' :: '\n' :: cs) = '\n' :: '\n' :: collapseNl (dropNl cs) := by
  rw [collapseNl]
  rw [if_pos ⟨rfl, rfl, rfl⟩]

/- Identity of every substitution on `<`-free strings: each pattern requires a
   literal `<` at its start. -/

theorem rtp_no_lt {tag : List Char} (mk : List Char → List Char) {s : List Char}
    (h : '<' ∉ s) : replaceTagPair tag mk s = s := by
  induction s with
  | nil => exact rtp_nil tag mk
  | cons c cs ih =>
    have hc : c ≠ '<' := fun hx => h (by rw [hx]; exact List.mem_cons_self _ _)
    rw [rtp_cons_none mk (tryTag_not_lt tag cs hc),
      ih (fun hx => h (List.mem_cons_of_mem _ hx))]

theorem rot_no_lt (tag : List Char) {s : List Char} (h : '<' ∉ s) :
    removeOpenTag tag s = s := by
  induction s with
  | nil => exact rot_nil tag
  | cons c cs ih =>
    have hc : c ≠ '<' := fun hx => h (by rw [hx]; exact List.mem_cons_self _ _)
    rw [rot_cons_none (tryOpen_not_lt tag cs hc),
      ih (fun hx => h (List.mem_cons_of_mem _ hx))]

theorem rc_no_lt (tag rep : List Char) {s : List Char} (h : '<' ∉ s) :
    replaceClose tag rep s = s := by
  induction s with
  | nil => exact rc_nil tag rep
  | cons c cs ih =>
    have hc : c ≠ '<' := fun hx => h (by rw [hx]; exact List.mem_cons_self _ _)
    rw [rc_cons_none (stripCi_head_ne _ _ (lowerChar_ne_lt hc)),
      ih (fun hx => h (List.mem_cons_of_mem _ hx))]

theorem ra_no_lt {s : List Char} (h : '<' ∉ s) : replaceAnchor s = s := by
  induction s with
  | nil => exact ra_nil
  | cons c cs ih =>
    have hc : c ≠ '<' := fun hx => h (by rw [hx]; exact List.mem_cons_self _ _)
    rw [ra_cons_none (tryAnchor_not_lt cs hc),
      ih (fun hx => h (List.mem_cons_of_mem _ hx))]

theorem stripTags_no_lt {s : List Char} (h : '<' ∉ s) : stripTags s = s := by
  induction s with
  | nil => exact stripTags_nil
  | cons c cs ih =>
    have hc : c ≠ '<' := fun hx => h (by rw [hx]; exact List.mem_cons_self _ _)
    rw [stripTags_cons_ne hc, ih (fun hx => h (List.mem_cons_of_mem _ hx))]

/-- The scan passes over a `<`-free chunk unchanged. -/
theorem rtp_skip {tag : List Char} (mk : List Char → List Char) {u : List Char}
    (v : List Char) (h : '<' ∉ u) :
    replaceTagPair tag mk (u ++ v) = u ++ replaceTagPair tag mk v := by
  induction u with
  | nil => rfl
  | cons c cs ih =>
    have hc : c ≠ '<' := fun hx => h (by rw [hx]; exact List.mem_cons_self _ _)
    show replaceTagPair tag mk (c :: (cs ++ v)) = c :: (cs ++ replaceTagPair tag mk v)
    rw [rtp_cons_none mk (tryTag_not_lt tag _ hc),
      ih (fun hx => h (List.mem_cons_of_mem _ hx))]

/-- The heading substitutions pass over paragraph-only HTML unchanged: a tag
    whose folded first letter is neither `p` nor `/` matches nowhere in
    `<p>...</p>` sequences with tag-free texts. -/
theorem rtp_genHtml_skip {hc0 : Char} (tl : List Char) (mk : List Char → List Char)
    (h1 : lowerChar hc0 ≠ lowerChar 'p') (h2 : lowerChar hc0 ≠ lowerChar '/') :
    ∀ (ts : List (List Char)), (∀ t ∈ ts, '<' ∉ t) →
      replaceTagPair (hc0 :: tl) mk (genHtml ts) = genHtml ts := by
  intro ts
  induction ts with
  | nil => intro _; exact rtp_nil _ mk
  | cons t ts ih =>
    intro hts
    have ht : '<' ∉ t := hts t (List.mem_cons_self _ _)
    have hts2 : ∀ x ∈ ts, '<' ∉ x := fun x hx => hts x (List.mem_cons_of_mem _ hx)
    have hop : tryTag (hc0 :: tl)
        ('<' :: 'p' :: '>' :: (t ++ '<' :: '/' :: 'p' :: '>' :: genHtml ts)) = none := by
      simp only [tryTag, if_true]
      rw [stripCi_head_ne _ _ h1]
    have hcl : tryTag (hc0 :: tl) ('<' :: '/' :: 'p' :: '>' :: genHtml ts) = none := by
      simp only [tryTag, if_true]
      rw [stripCi_head_ne _ _ h2]
    show replaceTagPair (hc0 :: tl) mk
        ('<' :: 'p' :: '>' :: (t ++ '<' :: '/' :: 'p' :: '>' :: genHtml ts))
      = '<' :: 'p' :: '>' :: (t ++ '<' :: '/' :: 'p' :: '>' :: genHtml ts)
    rw [rtp_cons_none mk hop]
    rw [rtp_cons_none mk (tryTag_not_lt _ _ (by decide))]
    rw [rtp_cons_none mk (tryTag_not_lt _ _ (by decide))]
    rw [rtp_skip mk _ ht]
    rw [rtp_cons_none mk hcl]
    rw [rtp_cons_none mk (tryTag_not_lt _ _ (by decide))]
    rw [rtp_cons_none mk (tryTag_not_lt _ _ (by decide))]
    rw [rtp_cons_none mk (tryTag_not_lt _ _ (by decide))]
    rw [ih hts2]

/-- The lazy body scan finds exactly the paragraph text when the text
    contains no tag opener and no newline. -/
theorem findBody_clean (cl r : List Char) : ∀ (t : List Char), '<' ∉ t → '\n' ∉ t →
    findBody ('<' :: cl) (t ++ '<' :: (cl ++ r)) = some (t, r) := by
  intro t
  induction t with
  | nil =>
    intro _ _
    show findBody ('<' :: cl) ('<' :: (cl ++ r)) = some ([], r)
    unfold findBody
    rw [show stripCi ('<' :: cl) ('<' :: (cl ++ r)) = some r from stripCi_self ('<' :: cl) r]
  | cons c t ih =>
    intro h1 h2
    have hc : c ≠ '<' := fun hx => h1 (by rw [hx]; exact List.mem_cons_self _ _)
    have hcn : c ≠ '\n' := fun hx => h2 (by rw [hx]; exact List.mem_cons_self _ _)
    have ih2 := ih (fun hx => h1 (List.mem_cons_of_mem _ hx))
      (fun hx => h2 (List.mem_cons_of_mem _ hx))
    show findBody ('<' :: cl) (c :: (t ++ '<' :: (cl ++ r))) = some (c :: t, r)
    unfold findBody
    rw [stripCi_head_ne _ _ (lowerChar_ne_lt hc)]
    show (if c = '\n' then none
        else match findBody ('<' :: cl) (t ++ '<' :: (cl ++ r)) with
          | some (body, rest) => some (c :: body, rest)
          | none => none) = some (c :: t, r)
    rw [if_neg hcn, ih2]

/-- The paragraph substitution turns paragraph-only HTML into the bodies
    separated by blank lines. -/
theorem rtp_p_genHtml : ∀ (ts : List (List Char)), (∀ t ∈ ts, '<' ∉ t ∧ '\n' ∉ t) →
    replaceTagPair ['p'] paragraphMk (genHtml ts) = mdParas ts := by
  intro ts
  induction ts with
  | nil => intro _; exact rtp_nil _ _
  | cons t ts ih =>
    intro hts
    have ht := hts t (List.mem_cons_self _ _)
    have hts2 : ∀ x ∈ ts, '<' ∉ x ∧ '\n' ∉ x := fun x hx => hts x (List.mem_cons_of_mem _ hx)
    have hopen : tryTag ['p'] ('<' :: 'p' :: '>' :: (t ++ '<' :: '/' :: 'p' :: '>' :: genHtml ts))
        = some (t, genHtml ts) := by
      simp only [tryTag, if_true]
      rw [show stripCi ['p'] ('p' :: '>' :: (t ++ '<' :: '/' :: 'p' :: '>' :: genHtml ts))
          = some ('>' :: (t ++ '<' :: '/' :: 'p' :: '>' :: genHtml ts)) from stripCi_self ['p'] _]
      show (match skipAttrs ('>' :: (t ++ '<' :: '/' :: 'p' :: '>' :: genHtml ts)) with
        | some afterGt => findBody ['<', '/', 'p', '>'] afterGt
        | none => none) = some (t, genHtml ts)
      rw [show skipAttrs ('>' :: (t ++ '<' :: '/' :: 'p' :: '>' :: genHtml ts))
          = some (t ++ '<' :: '/' :: 'p' :: '>' :: genHtml ts) from by
        unfold skipAttrs
        rw [if_pos rfl]]
      show findBody ['<', '/', 'p', '>'] (t ++ '<' :: '/' :: 'p' :: '>' :: genHtml ts)
          = some (t, genHtml ts)
      exact findBody_clean ['/', 'p', '>'] (genHtml ts) t ht.1 ht.2
    show replaceTagPair ['p'] paragraphMk
        ('<' :: 'p' :: '>' :: (t ++ '<' :: '/' :: 'p' :: '>' :: genHtml ts)) = mdParas (t :: ts)
    rw [rtp_cons_some _ hopen, ih hts2]
    show paragraphMk t ++ mdParas ts = t ++ '\n' :: '\n' :: mdParas ts
    simp [paragraphMk]

theorem mdParas_no_lt : ∀ (ts : List (List Char)), (∀ t ∈ ts, '<' ∉ t) →
    '<' ∉ mdParas ts := by
  intro ts
  induction ts with
  | nil => intro _ hmem; simp [mdParas] at hmem
  | cons t ts ih =>
    intro hts hmem
    simp only [mdParas] at hmem
    rcases List.mem_append.mp hmem with hx | hx
    · exact hts t (List.mem_cons_self _ _) hx
    · rcases List.mem_cons.mp hx with hx | hx
      · exact absurd hx (by decide)
      · rcases List.mem_cons.mp hx with hx | hx
        · exact absurd hx (by decide)
        · exact ih (fun x h => hts x (List.mem_cons_of_mem _ h)) hx

theorem dropNl_head_ne : ∀ {cs : List Char} {x : Char}, (dropNl cs).head? = some x → x ≠ '\n' := by
  intro cs
  induction cs with
  | nil => intro x h; cases h
  | cons c cs ih =>
    intro x h
    unfold dropNl at h
    rw [List.dropWhile_cons] at h
    by_cases hc : c = '\n'
    · rw [if_pos (by simp [hc])] at h
      exact ih h
    · rw [if_neg (by simp [hc])] at h
      simp at h
      rw [← h]
      exact hc

theorem collapseNl_headq (s : List Char) : (collapseNl s).head? = s.head? := by
  induction s using collapseNl.induct with
  | case1 => rw [collapseNl_nil]
  | case2 c => rw [collapseNl_one]
  | case3 c d => rw [collapseNl_two]
  | case4 c d e cs hdd ih =>
    obtain ⟨hc, hd, he⟩ := hdd
    subst hc; subst hd; subst he
    rw [collapseNl_cons3t]
    rfl
  | case5 c d e cs hdd ih =>
    rw [collapseNl_cons3 c d e cs hdd]
    rfl

theorem collapseNl_no3 : ∀ (s : List Char), ¬ ['\n', '\n', '\n'] <:+: collapseNl s := by
  intro s
  induction s using collapseNl.induct with
  | case1 => rw [collapseNl_nil]; intro h; exact absurd h.length_le (by simp)
  | case2 c => rw [collapseNl_one]; intro h; exact absurd h.length_le (by simp)
  | case3 c d => rw [collapseNl_two]; intro h; exact absurd h.length_le (by simp)
  | case4 c d e cs hdd ih =>
    obtain ⟨hc, hd, he⟩ := hdd
    subst hc; subst hd; subst he
    rw [collapseNl_cons3t]
    have hXne : (collapseNl (dropNl cs)).head? ≠ some '\n' := by
      intro hx
      rw [collapseNl_headq] at hx
      exact dropNl_head_ne hx rfl
    intro h
    rcases List.infix_cons_iff.mp h with hpre | h2
    · rcases hpre with ⟨u, hu⟩
      simp only [List.cons_append] at hu
      have h3 : '\n' :: u = collapseNl (dropNl cs) := ((List.cons.injEq _ _ _ _).mp
        (((List.cons.injEq _ _ _ _).mp hu).2)).2
      exact hXne (by rw [← h3]; rfl)
    · rcases List.infix_cons_iff.mp h2 with hpre | h3
      · rcases hpre with ⟨u, hu⟩
        simp only [List.cons_append] at hu
        have h3 : '\n' :: '\n' :: u = collapseNl (dropNl cs) :=
          ((List.cons.injEq _ _ _ _).mp hu).2
        exact hXne (by rw [← h3]; rfl)
      · exact ih h3
  | case5 c d e cs hdd ih =>
    rw [collapseNl_cons3 c d e cs hdd]
    intro h
    rcases List.infix_cons_iff.mp h with hpre | h2
    · rcases hpre with ⟨u, hu⟩
      simp only [List.cons_append] at hu
      have hc : c = '\n' := ((List.cons.injEq _ _ _ _).mp hu).1.symm
      have hY : collapseNl (d :: e :: cs) = '\n' :: '\n' :: u :=
        (((List.cons.injEq _ _ _ _).mp hu).2).symm
      have hd : d = '\n' := by
        have := collapseNl_headq (d :: e :: cs)
        rw [hY] at this
        simp at this
        exact this.symm
      have he : e ≠ '\n' := fun hx => hdd ⟨hc, hd, hx⟩
      subst hd
      match cs, hY with
      | [], hY =>
        rw [collapseNl_two] at hY
        simp at hY
        exact he hY.1
      | f :: cs2, hY =>
        rw [collapseNl_cons3 '\n' e f cs2 (fun hx => he hx.2.1)] at hY
        simp at hY
        have := collapseNl_headq (e :: f :: cs2)
        rw [hY] at this
        simp at this
        exact he this.symm
    · exact ih h2

theorem collapseNl_eq_self : ∀ {s : List Char}, ¬ ['\n', '\n', '\n'] <:+: s →
    collapseNl s = s := by
  intro s
  induction s using collapseNl.induct with
  | case1 => intro _; rw [collapseNl_nil]
  | case2 c => intro _; rw [collapseNl_one]
  | case3 c d => intro _; rw [collapseNl_two]
  | case4 c d e cs hdd ih =>
    intro h
    obtain ⟨hc, hd, he⟩ := hdd
    subst hc; subst hd; subst he
    exact absurd ⟨[], cs, rfl⟩ h
  | case5 c d e cs hdd ih =>
    intro h
    rw [collapseNl_cons3 c d e cs hdd, ih (fun hx => h (List.infix_cons hx))]

theorem collapseNl_no_lt : ∀ {s : List Char}, '<' ∉ s → '<' ∉ collapseNl s := by
  intro s
  induction s using collapseNl.induct with
  | case1 => intro h; rw [collapseNl_nil]; exact h
  | case2 c => intro h; rw [collapseNl_one]; exact h
  | case3 c d => intro h; rw [collapseNl_two]; exact h
  | case4 c d e cs hdd ih =>
    intro h hmem
    obtain ⟨hc, hd, he⟩ := hdd
    subst hc; subst hd; subst he
    rw [collapseNl_cons3t] at hmem
    have hcs : '<' ∉ dropNl cs := fun hx =>
      h (List.mem_cons_of_mem _ (List.mem_cons_of_mem _ (List.mem_cons_of_mem _
        ((List.dropWhile_sublist _).mem hx))))
    rcases List.mem_cons.mp hmem with hx | hx
    · exact absurd hx (by decide)
    · rcases List.mem_cons.mp hx with hx | hx
      · exact absurd hx (by decide)
      · exact ih hcs hx
  | case5 c d e cs hdd ih =>
    intro h hmem
    rw [collapseNl_cons3 c d e cs hdd] at hmem
    rcases List.mem_cons.mp hmem with hx | hx
    · exact h (by rw [hx]; exact List.mem_cons_self _ _)
    · exact ih (fun hy => h (List.mem_cons_of_mem _ hy)) hx

theorem dropWhile_idem (p : Char → Bool) (l : List Char) :
    (l.dropWhile p).dropWhile p = l.dropWhile p := by
  induction l with
  | nil => rfl
  | cons c cs ih =>
    rw [List.dropWhile_cons]
    by_cases hc : p c = true
    · rw [if_pos hc]
      exact ih
    · rw [if_neg hc, List.dropWhile_cons, if_neg hc]

theorem dw_fix_head {p : Char → Bool} {c : Char} {cs : List Char}
    (h : List.dropWhile p (c :: cs) = c :: cs) : p c = false := by
  by_cases hc : p c = true
  · rw [List.dropWhile_cons, if_pos hc] at h
    have hle := (@List.dropWhile_sublist Char cs p).length_le
    have hlen := congrArg List.length h
    simp at hlen
    omega
  · simpa using hc

theorem trimEnd_pre (x : List Char) :
    (x.reverse.dropWhile isSpaceChar).reverse <+: x := by
  have h2 := List.reverse_prefix.mpr (@List.dropWhile_suffix Char x.reverse isSpaceChar)
  simpa using h2

theorem trimStr_inside (s : List Char) : trimStr s <:+: s := by
  unfold trimStr
  exact ((trimEnd_pre (s.dropWhile isSpaceChar)).isInfix).trans
    (List.dropWhile_suffix isSpaceChar).isInfix

theorem dropWhile_trimStr (s : List Char) :
    (trimStr s).dropWhile isSpaceChar = trimStr s := by
  have hpre : trimStr s <+: s.dropWhile isSpaceChar := trimEnd_pre _
  match hz : trimStr s with
  | [] => rfl
  | c :: z =>
    rw [hz] at hpre
    rcases hpre with ⟨u, hu⟩
    have hfix : (s.dropWhile isSpaceChar).dropWhile isSpaceChar = s.dropWhile isSpaceChar :=
      dropWhile_idem isSpaceChar s
    rw [← hu] at hfix
    have hc : isSpaceChar c = false := @dw_fix_head isSpaceChar c (z ++ u)
      (show List.dropWhile isSpaceChar (c :: (z ++ u)) = c :: (z ++ u) from hfix)
    rw [List.dropWhile_cons, if_neg (by simp [hc])]

theorem trimStr_idem (s : List Char) : trimStr (trimStr s) = trimStr s := by
  have h1 : trimStr (trimStr s) = ((trimStr s).reverse.dropWhile isSpaceChar).reverse := by
    unfold trimStr
    rw [show (((s.dropWhile isSpaceChar).reverse.dropWhile isSpaceChar).reverse).dropWhile
        isSpaceChar = ((s.dropWhile isSpaceChar).reverse.dropWhile isSpaceChar).reverse from
      dropWhile_trimStr s]
  rw [h1]
  unfold trimStr
  rw [List.reverse_reverse, dropWhile_idem]

theorem trimStr_no_lt {s : List Char} (h : '<' ∉ s) : '<' ∉ trimStr s :=
  fun hx => h ((trimStr_inside s).sublist.mem hx)

theorem trimStr_no3 {s : List Char} (h : ¬ ['\n', '\n', '\n'] <:+: s) :
    ¬ ['\n', '\n', '\n'] <:+: trimStr s :=
  fun hx => h (hx.trans (trimStr_inside s))

/-- A `<`-free string with no run of three newlines and no surrounding
    whitespace passes through the whole pipeline unchanged. -/
theorem convertMarkdown_fixed {s : List Char} (h1 : '<' ∉ s)
    (h2 : ¬ ['\n', '\n', '\n'] <:+: s) (h3 : trimStr s = s) :
    convertMarkdown s = s := by
  unfold convertMarkdown
  rw [rtp_no_lt _ h1, rtp_no_lt _ h1, rtp_no_lt _ h1, rtp_no_lt _ h1, rtp_no_lt _ h1,
    rtp_no_lt _ h1, rtp_no_lt _ h1, rtp_no_lt _ h1, rtp_no_lt _ h1, rtp_no_lt _ h1,
    rtp_no_lt _ h1, rot_no_lt _ h1, rc_no_lt _ _ h1, rot_no_lt _ h1, rc_no_lt _ _ h1,
    rtp_no_lt _ h1, rtp_no_lt _ h1, ra_no_lt h1, stripTags_no_lt h1,
    collapseNl_eq_self h2, h3]

/-- The whole pipeline on paragraph-only HTML: only the paragraph
    substitution fires, followed by the newline collapse and the trim. -/
theorem convertMarkdown_genHtml (ts : List (List Char))
    (hts : ∀ t ∈ ts, '<' ∉ t ∧ '\n' ∉ t) :
    convertMarkdown (genHtml ts) = trimStr (collapseNl (mdParas ts)) := by
  have hts1 : ∀ t ∈ ts, '<' ∉ t := fun t h => (hts t h).1
  have hmd : '<' ∉ mdParas ts := mdParas_no_lt ts hts1
  unfold convertMarkdown
  rw [rtp_genHtml_skip ['1'] (headingMk 1) (by decide) (by decide) ts hts1,
    rtp_genHtml_skip ['2'] (headingMk 2) (by decide) (by decide) ts hts1,
    rtp_genHtml_skip ['3'] (headingMk 3) (by decide) (by decide) ts hts1,
    rtp_genHtml_skip ['4'] (headingMk 4) (by decide) (by decide) ts hts1,
    rtp_genHtml_skip ['5'] (headingMk 5) (by decide) (by decide) ts hts1,
    rtp_genHtml_skip ['6'] (headingMk 6) (by decide) (by decide) ts hts1,
    rtp_p_genHtml ts hts,
    rtp_no_lt _ hmd, rtp_no_lt _ hmd, rtp_no_lt _ hmd, rtp_no_lt _ hmd,
    rot_no_lt _ hmd, rc_no_lt _ _ hmd, rot_no_lt _ hmd, rc_no_lt _ _ hmd,
    rtp_no_lt _ hmd, rtp_no_lt _ hmd, ra_no_lt hmd, stripTags_no_lt hmd]

/-- C1: Markdown export is idempotent on plain-paragraph content — for a
    rich-text document whose generated HTML is a sequence of `<p>...</p>`
    paragraphs of plain text (no markup, so no `<` and no newline in the
    texts), applying the HTML-to-Markdown substitution pipeline of
    `exportAsMarkdown` to its own output returns the identical string. -/
theorem markdown_idempotent_on_plain_paragraphs (ts : List (List Char))
    (hts : ∀ t ∈ ts, '<' ∉ t ∧ '\n' ∉ t) :
    convertMarkdown (convertMarkdown (genHtml ts)) = convertMarkdown (genHtml ts) := by
  rw [convertMarkdown_genHtml ts hts]
  have hmd : '<' ∉ mdParas ts := mdParas_no_lt ts (fun t h => (hts t h).1)
  have h1 : '<' ∉ trimStr (collapseNl (mdParas ts)) := trimStr_no_lt (collapseNl_no_lt hmd)
  have h2 : ¬ ['\n', '\n', '\n'] <:+: trimStr (collapseNl (mdParas ts)) :=
    trimStr_no3 (collapseNl_no3 (mdParas ts))
  exact convertMarkdown_fixed h1 h2 (trimStr_idem (collapseNl (mdParas ts)))

theorem markdown_idempotent_on_plain_paragraphs_witness :
    convertMarkdown (convertMarkdown (genHtml [['H', 'i'], ['y', 'o']]))
      = convertMarkdown (genHtml [['H', 'i'], ['y', 'o']]) :=
  markdown_idempotent_on_plain_paragraphs [['H', 'i'], ['y', 'o']] (by decide)
